import Mathlib

/-!
Verification of the Z-Y'-X'' Euler-angle rotation type of the kindr library
(`include/kindr/rotations/EulerAnglesZyx.hpp`), over an exact real-number
model of the floating-point scalars.
-/

namespace KindrZyx

noncomputable section

open Real

/-! ## Data model -/

/-- An Euler angle triple, stored in the internal order of `EulerAnglesZyx::zyx_`:
position 0 is the Z (yaw) angle, position 1 the Y' (pitch) angle, position 2 the
X'' (roll) angle. -/
structure Triple where
  z : ℝ
  y : ℝ
  x : ℝ

/-- Modelled from the spec: `kindr::common::floatingPointModulo` (declared in
`kindr/common/common.hpp`, which is not among the sources at hand).  The spec
describes it as "a positive floating-point modulus `mod(a, n)` returning a value
in `[0, n)` for finite inputs"; over the reals this is `x - y * ⌊x / y⌋`. -/
def floatingPointModulo (x y : ℝ) : ℝ := x - y * ⌊x / y⌋

/-- The pre-wrap of `getUnique` (lines 258-260 of the source): map the angle `a`
to `mod(a + π, 2π) − π`. -/
def wrapAngle (a : ℝ) : ℝ := floatingPointModulo (a + π) (2 * π) - π

/-- Componentwise pre-wrap of a triple, as applied by `getUnique` to `z()`, `y()`
and `x()` in internal order. -/
def wrapTriple (t : Triple) : Triple := ⟨wrapAngle t.z, wrapAngle t.y, wrapAngle t.x⟩

/-- The tolerance `tol = 1e-3` of `getUnique`. -/
def tol : ℝ := 1 / 1000

/-- The five-band classification of `getUnique` (lines 262-311 of the source),
acting on the already pre-wrapped triple. -/
def bandStep (t : Triple) : Triple :=
  if t.y < -(π / 2) - tol then
    ⟨if t.z < 0 then t.z + π else t.z - π,
     -(t.y + π),
     if t.x < 0 then t.x + π else t.x - π⟩
  else if -(π / 2) - tol ≤ t.y ∧ t.y ≤ -(π / 2) + tol then
    ⟨t.z + t.x, t.y, 0⟩
  else if -(π / 2) + tol < t.y ∧ t.y < π / 2 - tol then
    ⟨t.z, t.y, t.x⟩
  else if π / 2 - tol ≤ t.y ∧ t.y ≤ π / 2 + tol then
    ⟨t.z - t.x, t.y, 0⟩
  else
    ⟨if t.z < 0 then t.z + π else t.z - π,
     -(t.y - π),
     if t.x < 0 then t.x + π else t.x - π⟩

/-- `EulerAnglesZyx::getUnique` (lines 257-314 of the source): pre-wrap all three
angles into `[-π, π)`, then apply the five-band step. -/
def getUnique (t : Triple) : Triple := bandStep (wrapTriple t)

/-- `EulerAnglesZyx::setUnique` (line 319 of the source): assigns `getUnique()`
to the receiver and returns it. -/
def setUnique (t : Triple) : Triple := getUnique t

/-! ## Quaternions and rotation matrices (collaborators of the converters) -/

/-- A quaternion `w + x i + y j + z k`, modelling `Eigen::Quaternion` /
`kindr::RotationQuaternion` coefficients. -/
structure Quat where
  w : ℝ
  x : ℝ
  y : ℝ
  z : ℝ

/-- Hamilton product of two quaternions. -/
def quatMul (a b : Quat) : Quat :=
  ⟨a.w * b.w - a.x * b.x - a.y * b.y - a.z * b.z,
   a.w * b.x + a.x * b.w + a.y * b.z - a.z * b.y,
   a.w * b.y - a.x * b.z + a.y * b.w + a.z * b.x,
   a.w * b.z + a.x * b.y - a.y * b.x + a.z * b.w⟩

/-- Modelled from the spec: quaternion inversion is "conjugate since it is unit"
(`RotationQuaternion::inverted`, not among the sources at hand). -/
def quatConjugate (q : Quat) : Quat := ⟨q.w, -q.x, -q.y, -q.z⟩

/-- Modelled from the spec: `RotationQuaternion` construction from an
`EulerAnglesZyx` triple (not among the sources at hand).  The triple denotes the
intrinsic composition Z then Y' then X'', so its quaternion is the product of
the three elementary axis-rotation quaternions. -/
def quatOfZyx (t : Triple) : Quat :=
  quatMul (quatMul ⟨Real.cos (t.z / 2), 0, 0, Real.sin (t.z / 2)⟩
                   ⟨Real.cos (t.y / 2), 0, Real.sin (t.y / 2), 0⟩)
          ⟨Real.cos (t.x / 2), Real.sin (t.x / 2), 0, 0⟩

/-- Modelled from the spec: the unit-quaternion collaborator's "conversion to a
3×3 rotation matrix" (`Eigen::Quaternion::toRotationMatrix`, standard formula). -/
def quatToRotationMatrix (q : Quat) : Matrix (Fin 3) (Fin 3) ℝ :=
  Matrix.of
    ![![1 - 2 * (q.y ^ 2 + q.z ^ 2), 2 * (q.x * q.y - q.z * q.w), 2 * (q.x * q.z + q.y * q.w)],
      ![2 * (q.x * q.y + q.z * q.w), 1 - 2 * (q.x ^ 2 + q.z ^ 2), 2 * (q.y * q.z - q.x * q.w)],
      ![2 * (q.x * q.z - q.y * q.w), 2 * (q.y * q.z + q.x * q.w), 1 - 2 * (q.x ^ 2 + q.y ^ 2)]]

/-- The two-argument arctangent with the C `atan2` quadrant convention, realised
as the complex argument of `x + y i`. -/
def atan2 (y x : ℝ) : ℝ := Complex.arg (x + y * Complex.I)

/-- Modelled from the spec's external collaborator: Eigen's
`MatrixBase::eulerAngles(2, 1, 0)` (Graphics Gems IV algorithm), the call made
by the quaternion-to-ZYX conversion trait at line 410 of the source.  For the
axis choice (2,1,0) the permutation is odd, so the first angle is flipped into
`[0, π]` and there is no final negation. -/
def eigenEulerAngles210 (M : Matrix (Fin 3) (Fin 3) ℝ) : Triple :=
  let a0 := atan2 (M 1 0) (M 0 0)
  let c2 := Real.sqrt ((M 2 2) ^ 2 + (M 2 1) ^ 2)
  if a0 < 0 then
    ⟨a0 + π,
     atan2 (-(M 2 0)) (-c2),
     atan2 (Real.sin (a0 + π) * M 0 2 - Real.cos (a0 + π) * M 1 2)
           (Real.cos (a0 + π) * M 1 1 - Real.sin (a0 + π) * M 0 1)⟩
  else
    ⟨a0,
     atan2 (-(M 2 0)) c2,
     atan2 (Real.sin a0 * M 0 2 - Real.cos a0 * M 1 2)
           (Real.cos a0 * M 1 1 - Real.sin a0 * M 0 1)⟩

/-- `ConversionTraits<EulerAnglesZyx, RotationQuaternion>::convert` (lines
406-412 of the source): build the rotation matrix of the quaternion and apply
Eigen's `eulerAngles(2, 1, 0)` to it, with no transpose. -/
def convertFromQuaternion (q : Quat) : Triple :=
  eigenEulerAngles210 (quatToRotationMatrix q)

/-- `ConversionTraits<EulerAnglesZyx, RotationMatrix>::convert` (lines 414-428
of the source): form `R_BI = R.transpose()`, read `r11 = R_BI(0,0)`,
`r12 = R_BI(0,1)`, `r13 = R_BI(0,2)`, `r23 = R_BI(1,2)`, `r33 = R_BI(2,2)` and
return `(atan2(r12, r11), -asin(r13), atan2(r23, r33))`. -/
def convertFromRotationMatrix (R : Matrix (Fin 3) (Fin 3) ℝ) : Triple :=
  ⟨atan2 (R.transpose 0 1) (R.transpose 0 0),
   -(Real.arcsin (R.transpose 0 2)),
   atan2 (R.transpose 1 2) (R.transpose 2 2)⟩

/-- The conversion path the spec prescribes for a unit quaternion: form the
rotation matrix of `q`, then apply the rotation-matrix-to-triple extraction. -/
def specQuatPath (q : Quat) : Triple :=
  convertFromRotationMatrix (quatToRotationMatrix q)

/-- `EulerAnglesZyx::inverted` (lines 131-133 of the source): convert the triple
to a unit quaternion, invert (conjugate) it, and convert back through the
quaternion-to-ZYX conversion trait. -/
def inverted (t : Triple) : Triple :=
  convertFromQuaternion (quatConjugate (quatOfZyx t))

/-- `EulerAnglesZyx::invert` (lines 138-141 of the source): assigns
`this->inverted()` to the receiver. -/
def invert (t : Triple) : Triple := inverted t

/-! ## Method-call state model (receiver before/after, result) -/

/-- `getUnique()` as a state transformer on the receiver: it is a `const` method
building its result in a local vector, so the receiver is returned unchanged
alongside the fresh value. -/
def getUniqueOp (s : Triple) : Triple × Triple := (s, getUnique s)

/-- `inverted()` as a state transformer on the receiver: a `const` method
returning a fresh value. -/
def invertedOp (s : Triple) : Triple × Triple := (s, inverted s)

/-- `invert()` as a state transformer: overwrites the receiver with its inverse
and returns a reference to it. -/
def invertOp (s : Triple) : Triple × Triple := (inverted s, inverted s)

/-- `setUnique()` as a state transformer: overwrites the receiver with
`getUnique()` and returns a reference to it. -/
def setUniqueOp (s : Triple) : Triple × Triple := (getUnique s, getUnique s)

/-! ## Display -/

/-- The stored coefficient sequence of `zyx_`, in the internal order (z, y, x);
`operator<<` prints its transpose, a 1×3 row vector. -/
def coeffList (t : Triple) : List ℝ := [t.z, t.y, t.x]

/-- Modelled from the spec's external collaborator: Eigen's default `ostream`
printing of a single-row vector emits each coefficient in order, separated by
the default coefficient separator, a single space, with no trailing output. -/
def eigenPrintRow (render : ℝ → String) (l : List ℝ) : String :=
  String.join (List.intersperse " " (l.map render))

/-- `operator<<` for `EulerAnglesZyx` (lines 339-342 of the source): stream
`zyx_.transpose()` with Eigen's default format, given a scalar renderer. -/
def display (render : ℝ → String) (t : Triple) : String :=
  eigenPrintRow render (coeffList t)

/-! ## Helper lemmas -/

theorem Triple.ext_iff_mk {a b : Triple} : a = b ↔ a.z = b.z ∧ a.y = b.y ∧ a.x = b.x := by
  cases a; cases b; simp_all

theorem floatingPointModulo_mem {y : ℝ} (hy : 0 < y) (x : ℝ) :
    0 ≤ floatingPointModulo x y ∧ floatingPointModulo x y < y := by
  have hfract : floatingPointModulo x y = y * Int.fract (x / y) := by
    unfold floatingPointModulo
    rw [Int.fract, mul_sub, mul_comm y (x / y), div_mul_cancel₀ x hy.ne']
  constructor
  · rw [hfract]
    exact mul_nonneg hy.le (Int.fract_nonneg _)
  · rw [hfract]
    calc y * Int.fract (x / y) < y * 1 := by
          exact mul_lt_mul_of_pos_left (Int.fract_lt_one _) hy
      _ = y := mul_one y

theorem wrapAngle_mem (a : ℝ) : -π ≤ wrapAngle a ∧ wrapAngle a < π := by
  have h := floatingPointModulo_mem (by positivity : (0:ℝ) < 2 * π) (a + π)
  unfold wrapAngle
  exact ⟨by linarith [h.1], by linarith [h.2]⟩

theorem wrapAngle_eq_self {a : ℝ} (h1 : -π ≤ a) (h2 : a < π) : wrapAngle a = a := by
  have hfloor : ⌊(a + π) / (2 * π)⌋ = 0 := by
    rw [Int.floor_eq_zero_iff]
    have hpi : (0:ℝ) < 2 * π := by positivity
    constructor
    · exact div_nonneg (by linarith) hpi.le
    · rw [div_lt_one hpi]
      linarith
  unfold wrapAngle floatingPointModulo
  rw [hfloor]
  push_cast
  ring

theorem wrapAngle_eq_sub {a : ℝ} (h1 : π ≤ a) (h2 : a < 3 * π) :
    wrapAngle a = a - 2 * π := by
  have hpi : (0:ℝ) < 2 * π := by positivity
  have hfloor : ⌊(a + π) / (2 * π)⌋ = 1 := by
    rw [Int.floor_eq_iff]
    constructor
    · rw [le_div_iff₀ hpi]
      push_cast
      linarith
    · rw [div_lt_iff₀ hpi]
      push_cast
      linarith
  unfold wrapAngle floatingPointModulo
  rw [hfloor]
  push_cast
  ring

theorem wrapTriple_eq_self {t : Triple}
    (hz : -π ≤ t.z ∧ t.z < π) (hy : -π ≤ t.y ∧ t.y < π) (hx : -π ≤ t.x ∧ t.x < π) :
    wrapTriple t = t := by
  unfold wrapTriple
  rw [wrapAngle_eq_self hz.1 hz.2, wrapAngle_eq_self hy.1 hy.2, wrapAngle_eq_self hx.1 hx.2]

theorem bandStep_bounds (w : Triple)
    (hz1 : -π ≤ w.z) (hz2 : w.z < π) (hy1 : -π ≤ w.y) (hy2 : w.y < π)
    (hx1 : -π ≤ w.x) (hx2 : w.x < π) :
    (-(2 * π) ≤ (bandStep w).z ∧ (bandStep w).z < 2 * π) ∧
    (-(π / 2) - tol ≤ (bandStep w).y ∧ (bandStep w).y ≤ π / 2 + tol) ∧
    (-π ≤ (bandStep w).x ∧ (bandStep w).x < π) := by
  have hpi3 := Real.pi_gt_three
  have ht : tol = 1 / 1000 := rfl
  unfold bandStep
  by_cases h1 : w.y < -(π / 2) - tol
  · rw [if_pos h1]
    dsimp only
    split_ifs <;>
      exact ⟨⟨by linarith, by linarith⟩, ⟨by linarith, by linarith⟩, ⟨by linarith, by linarith⟩⟩
  · rw [if_neg h1]
    by_cases h2 : w.y ≤ -(π / 2) + tol
    · rw [if_pos ⟨le_of_not_lt h1, h2⟩]
      dsimp only
      exact ⟨⟨by linarith, by linarith⟩, ⟨by linarith [le_of_not_lt h1], by linarith⟩,
             ⟨by linarith, by linarith⟩⟩
    · rw [if_neg (fun hc => h2 hc.2)]
      by_cases h3 : w.y < π / 2 - tol
      · rw [if_pos ⟨lt_of_not_le h2, h3⟩]
        dsimp only
        exact ⟨⟨by linarith, by linarith⟩, ⟨by linarith [lt_of_not_le h2], by linarith⟩,
               ⟨by linarith, by linarith⟩⟩
      · rw [if_neg (fun hc => h3 hc.2)]
        by_cases h4 : w.y ≤ π / 2 + tol
        · rw [if_pos ⟨le_of_not_lt h3, h4⟩]
          dsimp only
          exact ⟨⟨by linarith, by linarith⟩, ⟨by linarith [le_of_not_lt h3], by linarith⟩,
                 ⟨by linarith, by linarith⟩⟩
        · rw [if_neg (fun hc => h4 hc.2)]
          have h4' := lt_of_not_le h4
          dsimp only
          split_ifs <;>
            exact ⟨⟨by linarith, by linarith⟩, ⟨by linarith, by linarith⟩,
                   ⟨by linarith, by linarith⟩⟩

theorem bandStep_sing_x_zero (w : Triple)
    (hy1 : -π ≤ w.y) (hy2 : w.y < π) :
    ((bandStep w).y ≤ -(π / 2) + tol → (bandStep w).x = 0) ∧
    (π / 2 - tol ≤ (bandStep w).y → (bandStep w).x = 0) := by
  have hpi3 := Real.pi_gt_three
  have ht : tol = 1 / 1000 := rfl
  unfold bandStep
  by_cases h1 : w.y < -(π / 2) - tol
  · rw [if_pos h1]
    dsimp only
    exact ⟨fun h => absurd h (by push_neg; linarith),
           fun h => absurd h (by push_neg; linarith)⟩
  · rw [if_neg h1]
    by_cases h2 : w.y ≤ -(π / 2) + tol
    · rw [if_pos ⟨le_of_not_lt h1, h2⟩]
      exact ⟨fun _ => rfl, fun _ => rfl⟩
    · rw [if_neg (fun hc => h2 hc.2)]
      by_cases h3 : w.y < π / 2 - tol
      · rw [if_pos ⟨lt_of_not_le h2, h3⟩]
        have h2' := lt_of_not_le h2
        exact ⟨fun h => absurd h (by push_neg; linarith),
               fun h => absurd h (by push_neg; linarith)⟩
      · rw [if_neg (fun hc => h3 hc.2)]
        by_cases h4 : w.y ≤ π / 2 + tol
        · rw [if_pos ⟨le_of_not_lt h3, h4⟩]
          exact ⟨fun _ => rfl, fun _ => rfl⟩
        · rw [if_neg (fun hc => h4 hc.2)]
          have h4' := lt_of_not_le h4
          dsimp only
          exact ⟨fun h => absurd h (by push_neg; linarith),
                 fun h => absurd h (by push_neg; linarith)⟩

theorem atan2_neg_sqrt (t : ℝ) (h : t ^ 2 ≤ 1) :
    atan2 (-t) (Real.sqrt (1 - t ^ 2)) = -(Real.arcsin t) := by
  unfold atan2
  have hre : (((Real.sqrt (1 - t ^ 2) : ℝ) : ℂ) + ((-t : ℝ) : ℂ) * Complex.I).re
      = Real.sqrt (1 - t ^ 2) := by simp
  have him : (((Real.sqrt (1 - t ^ 2) : ℝ) : ℂ) + ((-t : ℝ) : ℂ) * Complex.I).im = -t := by simp
  have habs : Complex.abs (((Real.sqrt (1 - t ^ 2) : ℝ) : ℂ) + ((-t : ℝ) : ℂ) * Complex.I) = 1 := by
    rw [Complex.abs_apply, Complex.normSq_apply, hre, him]
    have h1 : (0:ℝ) ≤ 1 - t ^ 2 := by linarith
    rw [show Real.sqrt (1 - t ^ 2) * Real.sqrt (1 - t ^ 2) = 1 - t ^ 2 from Real.mul_self_sqrt h1,
        show (1 - t ^ 2) + -t * -t = 1 by ring]
    exact Real.sqrt_one
  rw [Complex.arg_of_re_nonneg (by rw [hre]; positivity), him, habs, div_one, Real.arcsin_neg]

theorem atan2_div_pos (y x r : ℝ) (hr : 0 < r) : atan2 (y / r) (x / r) = atan2 y x := by
  unfold atan2
  have h : ((x / r : ℝ) : ℂ) + ((y / r : ℝ) : ℂ) * Complex.I =
      ((r⁻¹ : ℝ) : ℂ) * ((x : ℂ) + (y : ℝ) * Complex.I) := by
    push_cast
    field_simp
  rw [h, Complex.arg_real_mul _ (by positivity : (0:ℝ) < r⁻¹)]

theorem bandStep_band2 (w : Triple)
    (hb1 : -(π / 2) - tol ≤ w.y) (hb2 : w.y ≤ -(π / 2) + tol) :
    bandStep w = ⟨w.z + w.x, w.y, 0⟩ := by
  unfold bandStep
  rw [if_neg (by push_neg; linarith), if_pos ⟨hb1, hb2⟩]

theorem bandStep_band3 (w : Triple)
    (hb1 : -(π / 2) + tol < w.y) (hb2 : w.y < π / 2 - tol) :
    bandStep w = w := by
  have ht : tol = 1 / 1000 := rfl
  unfold bandStep
  rw [if_neg (by push_neg; linarith), if_neg (fun hc => absurd hc.2 (by push_neg; linarith)),
      if_pos ⟨hb1, hb2⟩]

theorem bandStep_band4 (w : Triple)
    (hb1 : π / 2 - tol ≤ w.y) (hb2 : w.y ≤ π / 2 + tol) :
    bandStep w = ⟨w.z - w.x, w.y, 0⟩ := by
  have hpi3 := Real.pi_gt_three
  have ht : tol = 1 / 1000 := rfl
  unfold bandStep
  rw [if_neg (by push_neg; linarith),
      if_neg (fun hc => absurd hc.2 (by push_neg; linarith)),
      if_neg (fun hc => absurd hc.2 (by push_neg; linarith)),
      if_pos ⟨hb1, hb2⟩]

/-! ## Claim theorems -/

/-- C6: the first step of `getUnique` maps each of the three components `a` to
`mod(a + π, 2π) − π` with a non-negative-remainder modulus, and the pre-wrapped
value lies in `[-π, π)` for all three components (yaw, pitch and roll). -/
theorem getUnique_prewrap (t : Triple) :
    getUnique t = bandStep ⟨floatingPointModulo (t.z + π) (2 * π) - π,
                            floatingPointModulo (t.y + π) (2 * π) - π,
                            floatingPointModulo (t.x + π) (2 * π) - π⟩ ∧
    (∀ a : ℝ, 0 ≤ floatingPointModulo a (2 * π) ∧ floatingPointModulo a (2 * π) < 2 * π) ∧
    (-π ≤ (wrapTriple t).z ∧ (wrapTriple t).z < π) ∧
    (-π ≤ (wrapTriple t).y ∧ (wrapTriple t).y < π) ∧
    (-π ≤ (wrapTriple t).x ∧ (wrapTriple t).x < π) :=
  ⟨rfl, fun a => floatingPointModulo_mem (by positivity) a,
   wrapAngle_mem t.z, wrapAngle_mem t.y, wrapAngle_mem t.x⟩

/-- C10: a triple whose components already lie in `[-π, π)` and whose pitch lies
strictly inside the middle band `(-π/2 + τ, π/2 − τ)` is a fixed point of
`getUnique`. -/
theorem getUnique_fixed_nonsingular (t : Triple)
    (hz1 : -π ≤ t.z) (hz2 : t.z < π) (hy1 : -π ≤ t.y) (hy2 : t.y < π)
    (hx1 : -π ≤ t.x) (hx2 : t.x < π)
    (hm1 : -(π / 2) + tol < t.y) (hm2 : t.y < π / 2 - tol) :
    getUnique t = t := by
  have hpi3 := Real.pi_gt_three
  have ht : tol = 1 / 1000 := rfl
  unfold getUnique
  rw [wrapTriple_eq_self ⟨hz1, hz2⟩ ⟨hy1, hy2⟩ ⟨hx1, hx2⟩]
  unfold bandStep
  rw [if_neg (by push_neg; linarith), if_neg (fun hc => absurd hc.2 (by push_neg; linarith)),
      if_pos ⟨hm1, hm2⟩]

/-- Witness for C10, at the identity triple `(0, 0, 0)`. -/
theorem getUnique_fixed_nonsingular_witness :
    (-π ≤ (0:ℝ) ∧ (0:ℝ) < π ∧ -(π / 2) + tol < (0:ℝ) ∧ (0:ℝ) < π / 2 - tol) ∧
    getUnique ⟨0, 0, 0⟩ = (⟨0, 0, 0⟩ : Triple) := by
  have hpi3 := Real.pi_gt_three
  have ht : tol = 1 / 1000 := rfl
  refine ⟨⟨by linarith, by linarith, by linarith, by linarith⟩, ?_⟩
  exact getUnique_fixed_nonsingular ⟨0, 0, 0⟩
    (show -π ≤ (0:ℝ) by linarith) (show (0:ℝ) < π by linarith)
    (show -π ≤ (0:ℝ) by linarith) (show (0:ℝ) < π by linarith)
    (show -π ≤ (0:ℝ) by linarith) (show (0:ℝ) < π by linarith)
    (show -(π / 2) + tol < (0:ℝ) by linarith) (show (0:ℝ) < π / 2 - tol by linarith)

/-- C5: after the pre-wrap, a pitch in the lower singular band yields
`(z + x, y, 0)`, and a pitch in the upper singular band yields `(z − x, y, 0)`,
with the pitch unchanged in both cases. -/
theorem getUnique_singular_bands (t : Triple) :
    (-(π / 2) - tol ≤ (wrapTriple t).y ∧ (wrapTriple t).y ≤ -(π / 2) + tol →
      getUnique t = ⟨(wrapTriple t).z + (wrapTriple t).x, (wrapTriple t).y, 0⟩) ∧
    (π / 2 - tol ≤ (wrapTriple t).y ∧ (wrapTriple t).y ≤ π / 2 + tol →
      getUnique t = ⟨(wrapTriple t).z - (wrapTriple t).x, (wrapTriple t).y, 0⟩) := by
  have hpi3 := Real.pi_gt_three
  have ht : tol = 1 / 1000 := rfl
  constructor
  · rintro ⟨hb1, hb2⟩
    unfold getUnique bandStep
    rw [if_neg (by push_neg; linarith), if_pos ⟨hb1, hb2⟩]
  · rintro ⟨hb1, hb2⟩
    unfold getUnique bandStep
    rw [if_neg (by push_neg; linarith),
        if_neg (fun hc => absurd hc.2 (by push_neg; linarith)),
        if_neg (fun hc => absurd hc.2 (by push_neg; linarith)),
        if_pos ⟨hb1, hb2⟩]

/-- Witness for C5: the lower band at `(0, -π/2, 1/2)` and the upper band at
`(0, π/2, 1/2)`. -/
theorem getUnique_singular_bands_witness :
    ((-(π / 2) - tol ≤ (wrapTriple ⟨0, -(π / 2), 1 / 2⟩).y ∧
        (wrapTriple ⟨0, -(π / 2), 1 / 2⟩).y ≤ -(π / 2) + tol) ∧
      getUnique ⟨0, -(π / 2), 1 / 2⟩ =
        ⟨(wrapTriple ⟨0, -(π / 2), 1 / 2⟩).z + (wrapTriple ⟨0, -(π / 2), 1 / 2⟩).x,
         (wrapTriple ⟨0, -(π / 2), 1 / 2⟩).y, 0⟩) ∧
    ((π / 2 - tol ≤ (wrapTriple ⟨0, π / 2, 1 / 2⟩).y ∧
        (wrapTriple ⟨0, π / 2, 1 / 2⟩).y ≤ π / 2 + tol) ∧
      getUnique ⟨0, π / 2, 1 / 2⟩ =
        ⟨(wrapTriple ⟨0, π / 2, 1 / 2⟩).z - (wrapTriple ⟨0, π / 2, 1 / 2⟩).x,
         (wrapTriple ⟨0, π / 2, 1 / 2⟩).y, 0⟩) := by
  have hpi3 := Real.pi_gt_three
  have ht : tol = 1 / 1000 := rfl
  have h1 : (wrapTriple (⟨0, -(π / 2), 1 / 2⟩ : Triple)).y = -(π / 2) :=
    wrapAngle_eq_self (by linarith) (by linarith)
  have h2 : (wrapTriple (⟨0, π / 2, 1 / 2⟩ : Triple)).y = π / 2 :=
    wrapAngle_eq_self (by linarith) (by linarith)
  have hb1 : -(π / 2) - tol ≤ (wrapTriple (⟨0, -(π / 2), 1 / 2⟩ : Triple)).y ∧
      (wrapTriple (⟨0, -(π / 2), 1 / 2⟩ : Triple)).y ≤ -(π / 2) + tol := by
    rw [h1]; exact ⟨by linarith, by linarith⟩
  have hb2 : π / 2 - tol ≤ (wrapTriple (⟨0, π / 2, 1 / 2⟩ : Triple)).y ∧
      (wrapTriple (⟨0, π / 2, 1 / 2⟩ : Triple)).y ≤ π / 2 + tol := by
    rw [h2]; exact ⟨by linarith, by linarith⟩
  exact ⟨⟨hb1, (getUnique_singular_bands _).1 hb1⟩, ⟨hb2, (getUnique_singular_bands _).2 hb2⟩⟩

/-- C1 counterexample: at `(3, -π/2 - 1/2000, 3)` the result of `getUnique` has
yaw `6`, outside `[-π, π)`, and pitch `-π/2 - 1/2000`, outside `[-π/2, π/2)`. -/
theorem getUnique_box_counterexample :
    ¬ ((-π ≤ (getUnique ⟨3, -(π / 2) - 1 / 2000, 3⟩).z ∧
          (getUnique ⟨3, -(π / 2) - 1 / 2000, 3⟩).z < π) ∧
       (-(π / 2) ≤ (getUnique ⟨3, -(π / 2) - 1 / 2000, 3⟩).y ∧
          (getUnique ⟨3, -(π / 2) - 1 / 2000, 3⟩).y < π / 2) ∧
       (-π ≤ (getUnique ⟨3, -(π / 2) - 1 / 2000, 3⟩).x ∧
          (getUnique ⟨3, -(π / 2) - 1 / 2000, 3⟩).x < π)) := by
  have hpi3 := Real.pi_gt_three
  have hpi4 := Real.pi_lt_four
  have ht : tol = 1 / 1000 := rfl
  have heval : getUnique (⟨3, -(π / 2) - 1 / 2000, 3⟩ : Triple) =
      ⟨3 + 3, -(π / 2) - 1 / 2000, 0⟩ := by
    unfold getUnique
    rw [wrapTriple_eq_self
          ⟨show -π ≤ (3:ℝ) by linarith, show (3:ℝ) < π by linarith⟩
          ⟨show -π ≤ -(π / 2) - 1 / 2000 by linarith, show -(π / 2) - 1 / 2000 < π by linarith⟩
          ⟨show -π ≤ (3:ℝ) by linarith, show (3:ℝ) < π by linarith⟩]
    exact bandStep_band2 _ (show -(π / 2) - tol ≤ -(π / 2) - 1 / 2000 by linarith)
      (show -(π / 2) - 1 / 2000 ≤ -(π / 2) + tol by linarith)
  rw [heval]
  rintro ⟨⟨_, hz⟩, _, _⟩
  dsimp only at hz
  linarith

/-- C1 (amended): every component of `getUnique(t)` satisfies the weaker box
`z ∈ [-2π, 2π)`, `y ∈ [-π/2 − τ, π/2 + τ]`, `x ∈ [-π, π)`; the canonical box of
the claim fails in the singular pitch bands, where the yaw is set to `z ± x`
without re-wrapping and the pitch may exceed `±π/2` by up to `τ`. -/
theorem getUnique_box_amended (t : Triple) :
    (-(2 * π) ≤ (getUnique t).z ∧ (getUnique t).z < 2 * π) ∧
    (-(π / 2) - tol ≤ (getUnique t).y ∧ (getUnique t).y ≤ π / 2 + tol) ∧
    (-π ≤ (getUnique t).x ∧ (getUnique t).x < π) :=
  bandStep_bounds (wrapTriple t)
    (wrapAngle_mem t.z).1 (wrapAngle_mem t.z).2
    (wrapAngle_mem t.y).1 (wrapAngle_mem t.y).2
    (wrapAngle_mem t.x).1 (wrapAngle_mem t.x).2

/-- C2 counterexample: at `(3, -π/2, 3)` the first application of `getUnique`
returns yaw `6`; the second application wraps that yaw down by `2π`, so the two
results differ in the yaw component by exactly `2π` — far beyond one ULP. -/
theorem getUnique_idem_counterexample :
    (getUnique (getUnique ⟨3, -(π / 2), 3⟩)).z ≠ (getUnique ⟨3, -(π / 2), 3⟩).z ∧
    (getUnique ⟨3, -(π / 2), 3⟩).z - (getUnique (getUnique ⟨3, -(π / 2), 3⟩)).z = 2 * π := by
  have hpi3 := Real.pi_gt_three
  have hpi4 := Real.pi_lt_four
  have ht : tol = 1 / 1000 := rfl
  have heval1 : getUnique (⟨3, -(π / 2), 3⟩ : Triple) = ⟨3 + 3, -(π / 2), 0⟩ := by
    unfold getUnique
    rw [wrapTriple_eq_self
          ⟨show -π ≤ (3:ℝ) by linarith, show (3:ℝ) < π by linarith⟩
          ⟨show -π ≤ -(π / 2) by linarith, show -(π / 2) < π by linarith⟩
          ⟨show -π ≤ (3:ℝ) by linarith, show (3:ℝ) < π by linarith⟩]
    exact bandStep_band2 _ (show -(π / 2) - tol ≤ -(π / 2) by linarith)
      (show -(π / 2) ≤ -(π / 2) + tol by linarith)
  have heval2 : getUnique (⟨3 + 3, -(π / 2), 0⟩ : Triple) =
      ⟨(3 + 3 - 2 * π) + 0, -(π / 2), 0⟩ := by
    unfold getUnique
    have hw : wrapTriple (⟨3 + 3, -(π / 2), 0⟩ : Triple) = ⟨3 + 3 - 2 * π, -(π / 2), 0⟩ := by
      unfold wrapTriple
      rw [show ((⟨3 + 3, -(π / 2), 0⟩ : Triple)).z = (3 + 3 : ℝ) from rfl,
          show ((⟨3 + 3, -(π / 2), 0⟩ : Triple)).y = -(π / 2) from rfl,
          show ((⟨3 + 3, -(π / 2), 0⟩ : Triple)).x = (0:ℝ) from rfl,
          wrapAngle_eq_sub (by linarith) (by linarith),
          wrapAngle_eq_self (show -π ≤ -(π / 2) by linarith) (show -(π / 2) < π by linarith),
          wrapAngle_eq_self (show -π ≤ (0:ℝ) by linarith) (show (0:ℝ) < π by linarith)]
    rw [hw]
    exact bandStep_band2 _ (show -(π / 2) - tol ≤ -(π / 2) by linarith)
      (show -(π / 2) ≤ -(π / 2) + tol by linarith)
  rw [heval1, heval2]
  dsimp only
  constructor
  · intro h
    linarith
  · ring

/-- C2 (amended): `getUnique` is idempotent on every triple whose first
`getUnique` result has its yaw inside `[-π, π)`; outside that case the second
application differs, wrapping the yaw by a multiple of `2π`. -/
theorem getUnique_idem_amended (t : Triple)
    (h1 : -π ≤ (getUnique t).z) (h2 : (getUnique t).z < π) :
    getUnique (getUnique t) = getUnique t := by
  have hpi3 := Real.pi_gt_three
  have ht : tol = 1 / 1000 := rfl
  have hb := bandStep_bounds (wrapTriple t)
    (wrapAngle_mem t.z).1 (wrapAngle_mem t.z).2
    (wrapAngle_mem t.y).1 (wrapAngle_mem t.y).2
    (wrapAngle_mem t.x).1 (wrapAngle_mem t.x).2
  have hs := bandStep_sing_x_zero (wrapTriple t)
    (wrapAngle_mem t.y).1 (wrapAngle_mem t.y).2
  have hy1 : -(π / 2) - tol ≤ (getUnique t).y := hb.2.1.1
  have hy2 : (getUnique t).y ≤ π / 2 + tol := hb.2.1.2
  have hx1 : -π ≤ (getUnique t).x := hb.2.2.1
  have hx2 : (getUnique t).x < π := hb.2.2.2
  conv_lhs => rw [show getUnique (getUnique t) = bandStep (wrapTriple (getUnique t)) from rfl]
  rw [wrapTriple_eq_self ⟨h1, h2⟩ ⟨by linarith, by linarith⟩ ⟨hx1, hx2⟩]
  by_cases hl : (getUnique t).y ≤ -(π / 2) + tol
  · have hx0 : (getUnique t).x = 0 := hs.1 hl
    rw [bandStep_band2 _ hy1 hl, Triple.ext_iff_mk]
    refine ⟨?_, rfl, ?_⟩ <;> dsimp only
    · rw [hx0]; ring
    · rw [hx0]
  · by_cases hr : π / 2 - tol ≤ (getUnique t).y
    · have hx0 : (getUnique t).x = 0 := hs.2 hr
      rw [bandStep_band4 _ hr hy2, Triple.ext_iff_mk]
      refine ⟨?_, rfl, ?_⟩ <;> dsimp only
      · rw [hx0]; ring
      · rw [hx0]
    · exact bandStep_band3 _ (lt_of_not_le hl) (lt_of_not_le hr)

/-- Witness for the amended C2, at the identity triple. -/
theorem getUnique_idem_amended_witness :
    (-π ≤ (getUnique ⟨0, 0, 0⟩).z ∧ (getUnique ⟨0, 0, 0⟩).z < π) ∧
    getUnique (getUnique ⟨0, 0, 0⟩) = getUnique ⟨0, 0, 0⟩ := by
  have hpi3 := Real.pi_gt_three
  have ht : tol = 1 / 1000 := rfl
  have h : getUnique (⟨0, 0, 0⟩ : Triple) = ⟨0, 0, 0⟩ := by
    unfold getUnique
    rw [wrapTriple_eq_self
          ⟨show -π ≤ (0:ℝ) by linarith, show (0:ℝ) < π by linarith⟩
          ⟨show -π ≤ (0:ℝ) by linarith, show (0:ℝ) < π by linarith⟩
          ⟨show -π ≤ (0:ℝ) by linarith, show (0:ℝ) < π by linarith⟩]
    exact bandStep_band3 _ (show -(π / 2) + tol < (0:ℝ) by linarith)
      (show (0:ℝ) < π / 2 - tol by linarith)
  refine ⟨⟨?_, ?_⟩, getUnique_idem_amended _ ?_ ?_⟩ <;> rw [h] <;> dsimp only <;> linarith

/-- C3 counterexample: for the unit quaternion `(w, x, y, z) = (3/5, 0, 0, -4/5)`
(a pure yaw with negative angle), the code's path — Eigen's
`eulerAngles(2, 1, 0)` on the rotation matrix, which flips its first angle into
`[0, π]` — differs from the transpose-then-atan2 matrix extraction: the yaws
differ by `π`. -/
theorem convertFromQuaternion_matrix_path_counterexample :
    ((3:ℝ)/5) ^ 2 + (0:ℝ) ^ 2 + (0:ℝ) ^ 2 + (-(4/5) : ℝ) ^ 2 = 1 ∧
    convertFromQuaternion ⟨3/5, 0, 0, -(4/5)⟩ ≠ specQuatPath ⟨3/5, 0, 0, -(4/5)⟩ := by
  constructor
  · norm_num
  · intro h
    have hz := congrArg Triple.z h
    have ha0 : atan2 (quatToRotationMatrix ⟨3/5, 0, 0, -(4/5)⟩ 1 0)
        (quatToRotationMatrix ⟨3/5, 0, 0, -(4/5)⟩ 0 0) < 0 := by
      unfold atan2
      rw [Complex.arg_neg_iff]
      have e10 : quatToRotationMatrix ⟨3/5, 0, 0, -(4/5)⟩ 1 0 =
          2 * ((0:ℝ) * 0 + (-(4/5)) * (3/5)) := rfl
      simp only [Complex.add_im, Complex.ofReal_im, Complex.mul_im, Complex.ofReal_re,
        Complex.I_im, Complex.I_re]
      rw [e10]
      norm_num
    have hA : (convertFromQuaternion ⟨3/5, 0, 0, -(4/5)⟩).z =
        atan2 (quatToRotationMatrix ⟨3/5, 0, 0, -(4/5)⟩ 1 0)
          (quatToRotationMatrix ⟨3/5, 0, 0, -(4/5)⟩ 0 0) + π := by
      unfold convertFromQuaternion eigenEulerAngles210
      dsimp only
      rw [if_pos ha0]
    have hB : (specQuatPath ⟨3/5, 0, 0, -(4/5)⟩).z =
        atan2 (quatToRotationMatrix ⟨3/5, 0, 0, -(4/5)⟩ 1 0)
          (quatToRotationMatrix ⟨3/5, 0, 0, -(4/5)⟩ 0 0) := by
      unfold specQuatPath convertFromRotationMatrix
      dsimp only
      rw [Matrix.transpose_apply, Matrix.transpose_apply]
    rw [hA, hB] at hz
    linarith [Real.pi_pos]

/-- C3 (amended): the quaternion converter and the matrix-extraction path yield
equal triples for every unit quaternion whose rotation matrix `M` satisfies
`M₀₀² + M₁₀² > 0` (pitch not at `±π/2`) and `atan2(M₁₀, M₀₀) ≥ 0` (Eigen
performs no quadrant flip); outside these conditions the two paths can return
different (rotation-equivalent) triples. -/
theorem convertFromQuaternion_matrix_path_amended (q : Quat)
    (hq : q.w ^ 2 + q.x ^ 2 + q.y ^ 2 + q.z ^ 2 = 1)
    (hg : 0 < (quatToRotationMatrix q 0 0) ^ 2 + (quatToRotationMatrix q 1 0) ^ 2)
    (ha : 0 ≤ atan2 (quatToRotationMatrix q 1 0) (quatToRotationMatrix q 0 0)) :
    convertFromQuaternion q = specQuatPath q := by
  have e00 : quatToRotationMatrix q 0 0 = 1 - 2 * (q.y ^ 2 + q.z ^ 2) := rfl
  have e01 : quatToRotationMatrix q 0 1 = 2 * (q.x * q.y - q.z * q.w) := rfl
  have e02 : quatToRotationMatrix q 0 2 = 2 * (q.x * q.z + q.y * q.w) := rfl
  have e10 : quatToRotationMatrix q 1 0 = 2 * (q.x * q.y + q.z * q.w) := rfl
  have e11 : quatToRotationMatrix q 1 1 = 1 - 2 * (q.x ^ 2 + q.z ^ 2) := rfl
  have e12 : quatToRotationMatrix q 1 2 = 2 * (q.y * q.z - q.x * q.w) := rfl
  have e20 : quatToRotationMatrix q 2 0 = 2 * (q.x * q.z - q.y * q.w) := rfl
  have e21 : quatToRotationMatrix q 2 1 = 2 * (q.y * q.z + q.x * q.w) := rfl
  have e22 : quatToRotationMatrix q 2 2 = 1 - 2 * (q.x ^ 2 + q.y ^ 2) := rfl
  have hrow : (quatToRotationMatrix q 2 0) ^ 2 + (quatToRotationMatrix q 2 1) ^ 2 +
      (quatToRotationMatrix q 2 2) ^ 2 = 1 := by
    rw [e20, e21, e22]
    linear_combination (4 * (q.x ^ 2 + q.y ^ 2)) * hq
  have hcross1 : quatToRotationMatrix q 0 2 * quatToRotationMatrix q 1 0 -
      quatToRotationMatrix q 0 0 * quatToRotationMatrix q 1 2 = quatToRotationMatrix q 2 1 := by
    rw [e02, e10, e00, e12, e21]
    linear_combination (4 * q.y * q.z) * hq
  have hcross2 : quatToRotationMatrix q 0 0 * quatToRotationMatrix q 1 1 -
      quatToRotationMatrix q 0 1 * quatToRotationMatrix q 1 0 = quatToRotationMatrix q 2 2 := by
    rw [e00, e11, e01, e10, e22]
    linear_combination (4 * q.z ^ 2) * hq
  have hzne : ((quatToRotationMatrix q 0 0 : ℝ) : ℂ) +
      ((quatToRotationMatrix q 1 0 : ℝ) : ℂ) * Complex.I ≠ 0 := by
    intro h0
    rw [Complex.ext_iff] at h0
    simp only [Complex.add_re, Complex.ofReal_re, Complex.mul_re, Complex.I_re, Complex.I_im,
      Complex.ofReal_im, Complex.add_im, Complex.mul_im, Complex.zero_re, Complex.zero_im] at h0
    nlinarith [h0.1, h0.2]
  set r := Complex.abs (((quatToRotationMatrix q 0 0 : ℝ) : ℂ) +
      ((quatToRotationMatrix q 1 0 : ℝ) : ℂ) * Complex.I) with hrdef
  have hr : 0 < r := Complex.abs.pos hzne
  have hsin : Real.sin (atan2 (quatToRotationMatrix q 1 0) (quatToRotationMatrix q 0 0)) =
      quatToRotationMatrix q 1 0 / r := by
    unfold atan2
    rw [Complex.sin_arg]
    simp
  have hcos : Real.cos (atan2 (quatToRotationMatrix q 1 0) (quatToRotationMatrix q 0 0)) =
      quatToRotationMatrix q 0 0 / r := by
    unfold atan2
    rw [Complex.cos_arg hzne]
    simp
  unfold convertFromQuaternion specQuatPath convertFromRotationMatrix eigenEulerAngles210
  dsimp only
  rw [if_neg (not_lt.mpr ha), Triple.ext_iff_mk]
  refine ⟨?_, ?_, ?_⟩
  · dsimp only
    rw [Matrix.transpose_apply, Matrix.transpose_apply]
  · dsimp only
    rw [Matrix.transpose_apply]
    have hsq : (quatToRotationMatrix q 2 2) ^ 2 + (quatToRotationMatrix q 2 1) ^ 2 =
        1 - (quatToRotationMatrix q 2 0) ^ 2 := by linarith [hrow]
    rw [hsq]
    have hle : (quatToRotationMatrix q 2 0) ^ 2 ≤ 1 := by
      nlinarith [sq_nonneg (quatToRotationMatrix q 2 1), sq_nonneg (quatToRotationMatrix q 2 2)]
    exact atan2_neg_sqrt _ hle
  · dsimp only
    rw [Matrix.transpose_apply, Matrix.transpose_apply, hsin, hcos]
    have hnum : quatToRotationMatrix q 1 0 / r * quatToRotationMatrix q 0 2 -
        quatToRotationMatrix q 0 0 / r * quatToRotationMatrix q 1 2 =
        quatToRotationMatrix q 2 1 / r := by
      field_simp
      linear_combination hcross1
    have hden : quatToRotationMatrix q 0 0 / r * quatToRotationMatrix q 1 1 -
        quatToRotationMatrix q 1 0 / r * quatToRotationMatrix q 0 1 =
        quatToRotationMatrix q 2 2 / r := by
      field_simp
      linear_combination hcross2
    rw [hnum, hden, atan2_div_pos _ _ r hr]

/-- Witness for the amended C3, at the identity quaternion. -/
theorem convertFromQuaternion_matrix_path_amended_witness :
    ((1:ℝ) ^ 2 + (0:ℝ) ^ 2 + (0:ℝ) ^ 2 + (0:ℝ) ^ 2 = 1) ∧
    (0 < (quatToRotationMatrix ⟨1, 0, 0, 0⟩ 0 0) ^ 2 +
      (quatToRotationMatrix ⟨1, 0, 0, 0⟩ 1 0) ^ 2) ∧
    (0 ≤ atan2 (quatToRotationMatrix ⟨1, 0, 0, 0⟩ 1 0) (quatToRotationMatrix ⟨1, 0, 0, 0⟩ 0 0)) ∧
    convertFromQuaternion ⟨1, 0, 0, 0⟩ = specQuatPath ⟨1, 0, 0, 0⟩ := by
  have e00 : quatToRotationMatrix ⟨1, 0, 0, 0⟩ 0 0 = 1 - 2 * ((0:ℝ) ^ 2 + (0:ℝ) ^ 2) := rfl
  have e10 : quatToRotationMatrix ⟨1, 0, 0, 0⟩ 1 0 = 2 * ((0:ℝ) * 0 + 0 * 1) := rfl
  have h00 : quatToRotationMatrix ⟨1, 0, 0, 0⟩ 0 0 = 1 := by rw [e00]; norm_num
  have h10 : quatToRotationMatrix ⟨1, 0, 0, 0⟩ 1 0 = 0 := by rw [e10]; norm_num
  have hg : 0 < (quatToRotationMatrix ⟨1, 0, 0, 0⟩ 0 0) ^ 2 +
      (quatToRotationMatrix ⟨1, 0, 0, 0⟩ 1 0) ^ 2 := by rw [h00, h10]; norm_num
  have ha : 0 ≤ atan2 (quatToRotationMatrix ⟨1, 0, 0, 0⟩ 1 0)
      (quatToRotationMatrix ⟨1, 0, 0, 0⟩ 0 0) := by
    rw [h00, h10]
    unfold atan2
    norm_num [Complex.arg_one]
  exact ⟨by norm_num, hg, ha, convertFromQuaternion_matrix_path_amended ⟨1, 0, 0, 0⟩ (by norm_num) hg ha⟩

/-- C4: the matrix converter forms `R_B = Rᵀ` (it does not drop the transpose,
so the extraction reads the entries `R₁₀, R₂₀, R₂₁` of the untransposed matrix
rather than `R₀₁, R₀₂, R₁₂`) and returns yaw `atan2(r12, r11)`, pitch
`−asin(r13)` — whose value always lies in the clamp interval `[-π/2, π/2]` —
and roll `atan2(r23, r33)`. -/
theorem convertFromRotationMatrix_extraction (R : Matrix (Fin 3) (Fin 3) ℝ) :
    convertFromRotationMatrix R =
      ⟨atan2 (R 1 0) (R 0 0), -(Real.arcsin (R 2 0)), atan2 (R 2 1) (R 2 2)⟩ ∧
    -(π / 2) ≤ (convertFromRotationMatrix R).y ∧ (convertFromRotationMatrix R).y ≤ π / 2 := by
  refine ⟨?_, ?_, ?_⟩
  · unfold convertFromRotationMatrix
    simp only [Matrix.transpose_apply]
  · show -(π / 2) ≤ -(Real.arcsin (R.transpose 0 2))
    linarith [Real.arcsin_le_pi_div_two (R.transpose 0 2)]
  · show -(Real.arcsin (R.transpose 0 2)) ≤ π / 2
    linarith [Real.neg_pi_div_two_le_arcsin (R.transpose 0 2)]

/-- C7: `inverted` is the quaternion detour — convert to a unit quaternion,
conjugate, convert back — and `invert` overwrites the receiver with exactly the
triple `inverted` returns; both are total functions of the triple, so no input
signals an error. -/
theorem inverted_quaternion_detour (t : Triple) :
    inverted t = convertFromQuaternion (quatConjugate (quatOfZyx t)) ∧
    invert t = inverted t ∧
    (invertOp t).1 = inverted t :=
  ⟨rfl, rfl, rfl⟩

/-- C8: the display operation emits exactly the three components in the internal
order (z, y, x), separated by single spaces, with no trailing delimiter. -/
theorem display_format (render : ℝ → String) (t : Triple) :
    display render t = render t.z ++ " " ++ render t.y ++ " " ++ render t.x := by
  unfold display eigenPrintRow coeffList
  simp only [List.map, List.intersperse, String.join_eq, List.flatten]
  apply String.ext
  simp [String.data_append]

/-- C9: `getUnique()` and `inverted()` are `const` — the receiver state after
either call is the original triple and the computed triple is returned as a
fresh value — while `setUnique()` and `invert()` are the mutating variants. -/
theorem const_methods_frame (s : Triple) :
    (getUniqueOp s).1 = s ∧ (invertedOp s).1 = s ∧
    (getUniqueOp s).2 = getUnique s ∧ (invertedOp s).2 = inverted s ∧
    (setUniqueOp s).1 = getUnique s ∧ (invertOp s).1 = inverted s :=
  ⟨rfl, rfl, rfl, rfl, rfl, rfl⟩

end

end KindrZyx
